import Mathlib

/-!
Shallow embedding of the NumPy backend kernels of fealpy
(`src/fealpy/backend/numpy_backend.py`), together with proofs about them.

Arrays are modelled as Lean lists, machine floating-point numbers as elements
of a field (`ℝ` in the theorems, `ℚ` where decidable evaluation is needed),
and Python exceptions as `Except String`.
-/

section Defs

variable {K : Type} [Field K]

/-- One layer of `combinations_with_replacement`: extend each tuple produced
by `prev` (on the suffix of the pool starting at the chosen head) by that
head. -/
def cwrGo (prev : List ℕ → List (List ℕ)) : List ℕ → List (List ℕ)
  | [] => []
  | a :: as => ((prev (a :: as)).map (a :: ·)) ++ cwrGo prev as

/-- `r` layers of `combinations_with_replacement`. -/
def cwrN : ℕ → List ℕ → List (List ℕ)
  | 0 => fun _ => [[]]
  | r + 1 => cwrGo (cwrN r)

/-- Model of `itertools.combinations_with_replacement(pool, r)` for a pool
list in increasing order: all non-decreasing `r`-tuples of pool elements, in
lexicographic order. -/
def cwr (pool : List ℕ) (r : ℕ) : List (List ℕ) := cwrN r pool

/-- Consecutive differences `l[1:] - l[:-1]` of a row, in `ℤ` as the code
works with signed integer dtypes. -/
def diffs (l : List ℤ) : List ℤ :=
  List.zipWith (fun a b => a - b) l.tail l.dropLast

/-- `NumPyBackend.multi_index_matrix(p, dim)`: flip the list of
`combinations_with_replacement(range(p+1), dim)`, pad each row with a leading
`0` and a trailing `p`, and take consecutive differences. -/
def multi_index_matrix (p dim : ℕ) : List (List ℤ) :=
  ((cwr (List.range (p + 1)) dim).reverse).map
    (fun sep => diffs (((0 : ℤ) :: sep.map (Nat.cast : ℕ → ℤ)) ++ [(p : ℤ)]))

/-- Entry `A[k]` of the cumulative-product table of
`simplex_shape_function`, as a closed form: the running product
`∏_{t<k} (x - t)` (with `x = p·bc_j`) normalised by `1/k!`
(`P = 1.0/np.multiply.accumulate(c)`). -/
def gb (x : K) (k : ℕ) : K :=
  (∏ t ∈ Finset.range k, (x - (t : K))) / (k.factorial : K)

/-- `NumPyBackend.simplex_shape_function(bc, p)` (with the default
`mi = multi_index_matrix(p, TD)`): for `p = 1` return `bc` unchanged,
otherwise the product over the barycentric coordinates of the table entries
selected by each multi-index row. -/
def simplex_shape_function (bc : List K) (p : ℕ) : List K :=
  if p = 1 then bc
  else
    (multi_index_matrix p (bc.length - 1)).map
      (fun row => (List.zipWith (fun (k : ℤ) (b : K) => gb ((p : K) * b) k.toNat) row bc).prod)

/-- Row `k` of the table `F` of `simplex_grad_shape_function`: the
cumulative-product/lower-triangular-sum recursion produces
`F[k] = (∑_{m<k} p · ∏_{t<k, t≠m} (p·b - t)) / k!` (and `F[0] = 0`). -/
def Fval (p : ℕ) (b : K) (k : ℕ) : K :=
  (∑ m ∈ Finset.range k, (p : K) * ∏ t ∈ (Finset.range k).erase m, ((p : K) * b - (t : K))) /
    (k.factorial : K)

/-- The same expression with the outer factor `p` removed; `Fval p b k` is
`p * gbD (p*b) k`, and `gbD x k` is the derivative of `gb x k` in `x`. -/
def gbD (x : K) (k : ℕ) : K :=
  (∑ m ∈ Finset.range k, ∏ t ∈ (Finset.range k).erase m, (x - (t : K))) / (k.factorial : K)

/-- `NumPyBackend.simplex_grad_shape_function(bc, p)` (default `mi`):
entry `(α, i)` is `M[α_i, i] * ∏_{j ≠ i} Q[α_j, j]` with `Q = A[mi, ·]`
and `M = F[mi, ·]`. -/
def simplex_grad_shape_function (bc : List K) (p : ℕ) : List (List K) :=
  (multi_index_matrix p (bc.length - 1)).map (fun row =>
    (List.range bc.length).map (fun i =>
      Fval p (bc.getD i 0) (row.getD i 0).toNat *
        ((List.zipWith (fun (k : ℤ) (b : K) => gb ((p : K) * b) k.toNat) row bc).eraseIdx i).prod))

/-- COO entries as `(row, col, value)` triples. -/
def cooEntries (rows cols : List ℕ) (vals : List K) : List (ℕ × ℕ × K) :=
  rows.zip (cols.zip vals)

/-- Model of `scipy.sparse._sparsetools.coo_tocsr` as called by
`NumPyBackend.coo_tocsr`: a stable counting sort of the COO entries by row.
The row pointer counts entries with smaller row index; column indices and
values are emitted grouped by row, in input order inside each row.  Duplicate
`(row, col)` pairs are **not** merged (the wrapper allocates output arrays of
length exactly `nnz`). -/
def coo_tocsr (M : ℕ) (rows cols : List ℕ) (vals : List K) :
    List ℕ × List ℕ × List K :=
  let ent := cooEntries rows cols vals
  let sorted := (List.range M).flatMap (fun r => ent.filter (fun e => e.1 = r))
  ((List.range (M + 1)).map (fun i => (ent.filter (fun e => e.1 < i)).length),
   sorted.map (fun e => e.2.1), sorted.map (fun e => e.2.2))

/-- Model of `scipy.sparse._sparsetools.csr_matvec`:
`y[i] = ∑_{jj ∈ [crow[i], crow[i+1])} data[jj] * x[col[jj]]`. -/
def csr_matvec (M : ℕ) (crow col : List ℕ) (data x : List K) : List K :=
  (List.range M).map (fun i =>
    ((((data.zip col).drop (crow.getD i 0)).take (crow.getD (i + 1) 0 - crow.getD i 0)).map
      (fun vc => vc.1 * x.getD vc.2 0)).sum)

/-- Model of `scipy.sparse._sparsetools.coo_matvec`:
`y[row[k]] += val[k] * x[col[k]]` over all entries, starting from zeros. -/
def coo_matvec (M : ℕ) (rows cols : List ℕ) (vals x : List K) : List K :=
  (cooEntries rows cols vals).foldl
    (fun acc e => acc.set e.1 (acc.getD e.1 0 + e.2.2 * x.getD e.2.1 0))
    (List.replicate M 0)

/-- Matrix-vector product of the materialised dense matrix of a COO input
(duplicates accumulated by summation) with a dense vector. -/
def dense_matvec (M N : ℕ) (rows cols : List ℕ) (vals x : List K) : List K :=
  (List.range M).map (fun i =>
    ∑ j ∈ Finset.range N,
      (((cooEntries rows cols vals).filter (fun e => e.1 = i ∧ e.2.1 = j)).map
        (fun e => e.2.2)).sum * x.getD j 0)

/-- A dense NumPy operand as dispatched on by `coo_spmm`/`csr_spmm`: a rank-1
vector, a rank-2 matrix (list of rows), or an array of any other rank (whose
content the kernels never touch). -/
inductive DenseArr (K : Type) where
  | vec (v : List K)
  | mat (m : List (List K))
  | higher (ndim : ℕ)

/-- `ndim` of a dense operand. -/
def DenseArr.ndim : DenseArr K → ℕ
  | .vec _ => 1
  | .mat _ => 2
  | .higher n => n

/-- All-zero vector. -/
def vecZero (n : ℕ) : List K := List.replicate n 0

/-- Elementwise vector sum. -/
def vecAdd (u v : List K) : List K := List.zipWith (· + ·) u v

/-- Scalar multiple of a vector. -/
def vecScale (a : K) (v : List K) : List K := v.map (a * ·)

/-- Model of `scipy.sparse._sparsetools.csr_matvecs`:
`y[i, :] += data[jj] * x[col[jj], :]` row by row. -/
def csr_matvecs (M nvecs : ℕ) (crow col : List ℕ) (data : List K)
    (x : List (List K)) : List (List K) :=
  (List.range M).map (fun i =>
    (((data.zip col).drop (crow.getD i 0)).take (crow.getD (i + 1) 0 - crow.getD i 0)).foldl
      (fun acc vc => vecAdd acc (vecScale vc.1 (x.getD vc.2 (vecZero nvecs))))
      (vecZero nvecs))

/-- `NumPyBackend.coo_spmm`: dispatch on the ranks of `values` and `other`
exactly as in the source; the rank-2 case multiplies column by column with
`coo_matvec`.  (The stored closure of the vectorised rank-2 branch is the
transpose-map-transpose of the Python loop over `other.T`.) -/
def coo_spmm (rows cols : List ℕ) (values : DenseArr K) (shape : ℕ × ℕ)
    (other : DenseArr K) : Except String (DenseArr K) :=
  match values with
  | .vec v =>
    match other with
    | .vec x => .ok (.vec (coo_matvec shape.1 rows cols v x))
    | .mat m => .ok (.mat ((m.transpose.map (coo_matvec shape.1 rows cols v)).transpose))
    | .higher _ => .error "`other` must be a 1-D or 2-D array."
  | _ => .error "Batch sparse matrix multiplication has not been supported yet."

/-- `NumPyBackend.csr_spmm`: same dispatch, with `csr_matvec`/`csr_matvecs`. -/
def csr_spmm (crow col : List ℕ) (values : DenseArr K) (shape : ℕ × ℕ)
    (other : DenseArr K) : Except String (DenseArr K) :=
  match values with
  | .vec v =>
    match other with
    | .vec x => .ok (.vec (csr_matvec shape.1 crow col v x))
    | .mat m => .ok (.mat (csr_matvecs shape.1 (m.headD []).length crow col v m))
    | .higher _ => .error "`other` must be a 1-D or 2-D array."
  | _ => .error "Batch sparse matrix multiplication has not been supported yet."

/-- Determinant of a square matrix given as a list of rows (model of
`numpy.linalg.det`), by Laplace expansion along the first row. -/
def detL : List (List K) → K
  | [] => 1
  | r :: rs =>
    ((List.range (rs.length + 1)).map
      (fun j => (-1 : K) ^ j * r.getD j 0 * detL (rs.map (fun row => row.eraseIdx j)))).sum
termination_by l => l.length
decreasing_by simp

/-- `NumPyBackend.simplex_measure(entity, node)`: gather the vertex
coordinates, require the geometric dimension to equal `NVC - 1`, and return
the determinant of the consecutive edge vectors divided by `TD!`. -/
def simplex_measure (entity : List ℕ) (node : List (List K)) : Except String K :=
  let points := entity.map (fun i => node.getD i [])
  let TD := points.length - 1
  if TD ≠ (points.headD []).length then
    .error "The geometric dimension of points must be NVC-1to form a simplex."
  else
    .ok (detL (List.zipWith (fun nx pv => List.zipWith (fun a b => a - b) nx pv)
          points.tail points.dropLast) / (TD.factorial : K))

/-- A device argument: absent/`None`, the matching `'cpu'`, or any other
device string. -/
inductive Device where
  | null
  | cpu
  | other (s : String)

/-- NumPy (< 2.0) `zeros`: it has no `device` parameter, so receiving the
keyword at all would raise a `TypeError`. -/
def np_zeros (n : ℕ) (device : Option Device) : Except String (List K) :=
  match device with
  | Option.none => .ok (List.replicate n 0)
  | Option.some _ => .error "zeros() got an unexpected keyword argument 'device'"

/-- `_remove_device`: the wrapper pops the `device` keyword unconditionally
(whatever its value) and calls the wrapped function without it. -/
def remove_device {α : Type} (func : Option Device → α) : Device → α :=
  fun _ => func Option.none

/-- `NumPyBackend.zeros = staticmethod(_remove_device(np.zeros))` (the
NumPy < 2.0 branch of the class body). -/
def zeros (n : ℕ) (device : Device) : Except String (List K) :=
  remove_device (np_zeros n) device

/-- `NumPyBackend.device_put`: identity on the tensor, after validating the
device value. -/
def device_put {α : Type} (x : α) (device : Device) : Except String α :=
  match device with
  | .null => .ok x
  | .cpu => .ok x
  | .other _ => .error "only cpu device is supported by NumPyBackend "

/-- `NumPyBackend.vmap(func, in_axes, out_axes)`: the guard raises for
`in_axes != out_axes` with a fixed message (the f-string contains no
placeholders); otherwise a vectorised closure is returned.  The closure is
modelled for axis `0` (map over the leading axis), the only configuration the
guard admits that is exercised here. -/
def vmap {α β : Type} (func : α → β) (in_axes out_axes : ℤ) :
    Except String (List α → List β) :=
  if in_axes ≠ out_axes then
    .error "Only support in_axes == out_axes with numpy backend"
  else
    .ok (fun args => args.map func)

end Defs

section EasyClaims

/-- C6: `simplex_measure` returns `det(edges)/TD!`; on the unit right
triangle `(0,0),(1,0),(0,1)` it gives `1/2`, and on the unit tetrahedron
`(0,0,0),(1,0,0),(0,1,0),(0,0,1)` it gives `1/6`. -/
theorem C6_simplex_measure_units :
    simplex_measure [0, 1, 2] [[(0 : ℝ), 0], [1, 0], [0, 1]] = Except.ok (1 / 2) ∧
    simplex_measure [0, 1, 2, 3]
      [[(0 : ℝ), 0, 0], [1, 0, 0], [0, 1, 0], [0, 0, 1]] = Except.ok (1 / 6) := by
  constructor <;> norm_num [simplex_measure, detL, List.range_succ, Nat.factorial]

/-- C7 counterexample: `zeros` with the non-cpu device value `"cuda"`
succeeds (the wrapper silently drops the keyword) instead of failing with an
explicit error as the claim states. -/
theorem C7_counterexample :
    zeros 1 (Device.other "cuda") = Except.ok [(0 : ℝ)] ∧
    (zeros 1 (Device.other "cuda") : Except String (List ℝ)).isOk = true := by
  constructor <;> rfl

/-- C7 (amended): construction functions accept the optional device argument
and silently ignore **every** value of it (including non-cpu devices), because
`_remove_device` pops the keyword unconditionally; explicit validation of the
device value happens only in `device_put`, which accepts `None`/`'cpu'` and
raises for anything else. -/
theorem C7_device_handling :
    (∀ (n : ℕ) (d : Device), zeros n d = Except.ok (List.replicate n (0 : ℝ))) ∧
    (∀ x : List ℝ,
      device_put x Device.null = Except.ok x ∧
      device_put x Device.cpu = Except.ok x ∧
      ∀ s : String, device_put x (Device.other s) =
        Except.error "only cpu device is supported by NumPyBackend ") := by
  refine ⟨fun n d => rfl, fun x => ⟨rfl, rfl, fun s => rfl⟩⟩

/-- C9 counterexample: for `in_axes = 0`, `out_axes = 1` the raised
configuration error carries a fixed message (the f-string has no
placeholders): it does not name the offending values — the characters `'0'`
and `'1'` do not even occur in it. -/
theorem C9_counterexample :
    vmap (fun x : ℝ => 2 * x) 0 1 =
      Except.error "Only support in_axes == out_axes with numpy backend" ∧
    ("Only support in_axes == out_axes with numpy backend".toList.contains '0') = false ∧
    ("Only support in_axes == out_axes with numpy backend".toList.contains '1') = false := by
  refine ⟨rfl, by decide, by decide⟩

/-- C9 (amended): for every function and every pair of axis specifications
with `in_axes ≠ out_axes`, `vmap` raises the configuration error immediately,
with a fixed message that does not name the offending values; only
`in_axes = out_axes` is supported. -/
theorem C9_vmap_guard {α β : Type} (f : α → β) (i o : ℤ) (h : i ≠ o) :
    vmap f i o = Except.error "Only support in_axes == out_axes with numpy backend" := by
  simp [vmap, h]

/-- Witness for `C9_vmap_guard`. -/
theorem C9_vmap_guard_witness :
    (2 : ℤ) ≠ 3 ∧ vmap (fun x : ℝ => x) 2 3 =
      Except.error "Only support in_axes == out_axes with numpy backend" :=
  ⟨by decide, C9_vmap_guard (fun x : ℝ => x) 2 3 (by decide)⟩

/-- C5 counterexample: for a rank-3 dense operand `csr_spmm` raises
`ValueError("`other` must be a 1-D or 2-D array.")`, which is not the
"batched sparse product not supported" signal (that message belongs to the
batched-sparse-values branch). -/
theorem C5_counterexample :
    csr_spmm [0, 1] [0] (DenseArr.vec [(1 : ℚ)]) (1, 1) (DenseArr.higher 3) =
      Except.error "`other` must be a 1-D or 2-D array." ∧
    "`other` must be a 1-D or 2-D array." ≠
      "Batch sparse matrix multiplication has not been supported yet." := by
  refine ⟨rfl, by decide⟩

/-- C5 (amended): with rank-1 sparse values, `coo_spmm` and `csr_spmm`
accept a dense vector (rank 1) or a dense matrix (rank 2) and succeed; every
dense operand of rank ≥ 3 is rejected with the explicit
`ValueError("`other` must be a 1-D or 2-D array.")` rather than silently
truncated or coerced — the "batched ... not supported" message is raised for
batched sparse values, not for high-rank dense operands. -/
theorem C5_rank_dispatch (rows cols crow col : List ℕ) (v : List ℝ)
    (shape : ℕ × ℕ) (o : DenseArr ℝ) (h3 : 3 ≤ o.ndim) :
    (∀ x : List ℝ,
      (coo_spmm rows cols (DenseArr.vec v) shape (DenseArr.vec x)).isOk = true ∧
      (csr_spmm crow col (DenseArr.vec v) shape (DenseArr.vec x)).isOk = true) ∧
    (∀ m : List (List ℝ),
      (coo_spmm rows cols (DenseArr.vec v) shape (DenseArr.mat m)).isOk = true ∧
      (csr_spmm crow col (DenseArr.vec v) shape (DenseArr.mat m)).isOk = true) ∧
    (coo_spmm rows cols (DenseArr.vec v) shape o =
      Except.error "`other` must be a 1-D or 2-D array." ∧
     csr_spmm crow col (DenseArr.vec v) shape o =
      Except.error "`other` must be a 1-D or 2-D array.") := by
  refine ⟨fun x => ⟨rfl, rfl⟩, fun m => ⟨rfl, rfl⟩, ?_⟩
  cases o with
  | vec w => simp [DenseArr.ndim] at h3
  | mat w => simp [DenseArr.ndim] at h3
  | higher n => exact ⟨rfl, rfl⟩

/-- Witness for `C5_rank_dispatch`. -/
theorem C5_rank_dispatch_witness :
    (3 ≤ (DenseArr.higher 4 : DenseArr ℝ).ndim) ∧
    (coo_spmm [0] [0] (DenseArr.vec [(1 : ℝ)]) (1, 1) (DenseArr.higher 4) =
      Except.error "`other` must be a 1-D or 2-D array." ∧
     csr_spmm [0, 1] [0] (DenseArr.vec [(1 : ℝ)]) (1, 1) (DenseArr.higher 4) =
      Except.error "`other` must be a 1-D or 2-D array.") :=
  ⟨by decide,
   (C5_rank_dispatch [0] [0] [0, 1] [0] [(1 : ℝ)] (1, 1) (DenseArr.higher 4)
      (by decide)).2.2⟩

/-- C2 counterexample: a COO input with the duplicated pair `(0,0)` is
converted to a CSR triple that keeps both entries separate (`data = [1, 2]`,
two stored entries), not summed into a single entry. -/
theorem C2_counterexample :
    coo_tocsr 1 [0, 0] [0, 0] [(1 : ℚ), 2] = ([0, 2], [0, 0], [1, 2]) ∧
    (coo_tocsr 1 [0, 0] [0, 0] [(1 : ℚ), 2]).2.2.length ≠ 1 := by
  constructor <;> decide

end EasyClaims

section MultiIndex

lemma cwr_zero (s : List ℕ) : cwr s 0 = [[]] := rfl

lemma cwr_nil (r : ℕ) : cwr [] (r + 1) = [] := rfl

lemma cwr_cons (a : ℕ) (as : List ℕ) (r : ℕ) :
    cwr (a :: as) (r + 1) = ((cwr (a :: as) r).map (a :: ·)) ++ cwr as (r + 1) := rfl

lemma flatMap_congr_mem {α β : Type*} {l : List α} {f g : α → List β}
    (h : ∀ a ∈ l, f a = g a) : l.flatMap f = l.flatMap g := by
  induction l with
  | nil => rfl
  | cons a l ih =>
    simp only [List.flatMap_cons]
    rw [h a (by simp), ih (fun b hb => h b (by simp [hb]))]

lemma cwr_range' (r : ℕ) : ∀ (n a : ℕ),
    cwr (List.range' a n) (r + 1) =
      (List.range' a n).flatMap
        (fun x => (cwr (List.range' x (a + n - x)) r).map (x :: ·)) := by
  intro n
  induction n with
  | zero => intro a; simp [List.range', cwr_nil]
  | succ n ih =>
    intro a
    rw [List.range'_succ, cwr_cons, List.flatMap_cons]
    have h1 : a + (n + 1) - a = n + 1 := by omega
    rw [h1, List.range'_succ, ih (a + 1)]
    have h2 : a + 1 + n = a + (n + 1) := by omega
    simp only [h2]

lemma cwr_map_add (c : ℕ) : ∀ (r : ℕ) (s : List ℕ),
    cwr (s.map (· + c)) r = (cwr s r).map (List.map (· + c)) := by
  intro r
  induction r with
  | zero => intro s; rfl
  | succ r ihr =>
    intro s
    induction s with
    | nil => rfl
    | cons a as ihs =>
      simp only [List.map_cons]
      rw [cwr_cons]
      have h := ihr (a :: as)
      simp only [List.map_cons] at h
      rw [h, ihs, cwr_cons, List.map_append, List.map_map, List.map_map]
      rfl

lemma diffs_cons_cons (x y : ℤ) (l : List ℤ) :
    diffs (x :: y :: l) = (y - x) :: diffs (y :: l) := by
  simp [diffs]

lemma diffs_map_add (c : ℤ) : ∀ l : List ℤ, diffs (l.map (· + c)) = diffs l
  | [] => rfl
  | [x] => rfl
  | x :: y :: t => by
    simp only [List.map_cons]
    rw [diffs_cons_cons, diffs_cons_cons]
    have h := diffs_map_add c (y :: t)
    simp only [List.map_cons] at h
    rw [h, show y + c - (x + c) = y - x from by ring]

lemma rowFn_shift (p x : ℕ) (hxp : x ≤ p) (s : List ℕ) :
    diffs (((0 : ℤ) :: (x :: s.map (· + x)).map (Nat.cast : ℕ → ℤ)) ++ [(p : ℤ)]) =
      (x : ℤ) :: diffs (((0 : ℤ) :: s.map (Nat.cast : ℕ → ℤ)) ++ [((p - x : ℕ) : ℤ)]) := by
  have A : (x : ℤ) :: ((s.map (· + x)).map (Nat.cast : ℕ → ℤ) ++ [(p : ℤ)]) =
      (((0 : ℤ) :: s.map (Nat.cast : ℕ → ℤ)) ++ [((p - x : ℕ) : ℤ)]).map (· + (x : ℤ)) := by
    simp only [List.cons_append, List.map_cons, List.map_append, List.map_map, List.map_nil,
      zero_add, List.cons.injEq, true_and]
    congr 1
    simp [Nat.cast_sub hxp]
  simp only [List.map_cons, List.cons_append]
  rw [diffs_cons_cons, A, diffs_map_add, sub_zero]
  simp only [List.cons_append]

lemma mi_zero (p : ℕ) : multi_index_matrix p 0 = [[(p : ℤ)]] := by
  simp [multi_index_matrix, cwr, cwrN, diffs]

lemma mi_succ (p d : ℕ) :
    multi_index_matrix p (d + 1) =
      ((List.range (p + 1)).reverse).flatMap
        (fun a => (multi_index_matrix (p - a) d).map (fun r => (a : ℤ) :: r)) := by
  unfold multi_index_matrix
  rw [List.range_eq_range', cwr_range' d (p + 1) 0, List.reverse_flatMap,
    List.map_flatMap, ← List.range_eq_range']
  apply flatMap_congr_mem
  intro x hx
  have hxp : x ≤ p := by
    have hx2 := List.mem_range.mp (List.mem_reverse.mp hx)
    omega
  simp only [Function.comp_apply, List.map_reverse, List.map_map]
  have e1 : 0 + (p + 1) - x = (p - x) + 1 := by omega
  rw [e1, List.range'_eq_map_range]
  have e2 : (fun y => x + y) = (fun y => y + x) := funext fun y => Nat.add_comm x y
  rw [e2, cwr_map_add x d (List.range (p - x + 1)), List.map_map]
  congr 1
  refine List.map_congr_left fun s _ => ?_
  simp only [Function.comp_apply, List.map_cons]
  have h := rowFn_shift p x hxp s
  simp only [List.cons_append, List.map_cons] at h
  exact h

end MultiIndex

lemma mi_mem : ∀ (d p : ℕ) (r : List ℤ), r ∈ multi_index_matrix p d →
    r.length = d + 1 ∧ r.sum = (p : ℤ) ∧ ∀ x ∈ r, 0 ≤ x := by
  intro d
  induction d with
  | zero =>
    intro p r hr
    rw [mi_zero] at hr
    simp only [List.mem_singleton] at hr
    subst hr
    simp
  | succ d ih =>
    intro p r hr
    rw [mi_succ] at hr
    simp only [List.mem_flatMap, List.mem_map] at hr
    obtain ⟨a, ha, r', hr', rfl⟩ := hr
    have ha' : a ≤ p := by
      have := List.mem_range.mp (List.mem_reverse.mp ha); omega
    obtain ⟨hlen, hsum, hpos⟩ := ih (p - a) r' hr'
    refine ⟨by simp [hlen], ?_, ?_⟩
    · rw [List.sum_cons, hsum]
      push_cast [Nat.cast_sub ha']
      ring
    · intro x hx
      rcases List.mem_cons.mp hx with h | h
      · subst h; exact Int.natCast_nonneg a
      · exact hpos x h

lemma sum_map_choose : ∀ (p d : ℕ),
    ((List.range (p + 1)).map (fun a => Nat.choose (p - a + d) d)).sum =
      Nat.choose (p + d + 1) (d + 1) := by
  intro p
  induction p with
  | zero => intro d; simp
  | succ p ih =>
    intro d
    rw [List.range_succ_eq_map]
    simp only [List.map_cons, List.sum_cons, List.map_map]
    have h2 : ((fun a => Nat.choose (p + 1 - a + d) d) ∘ Nat.succ) =
        (fun a => Nat.choose (p - a + d) d) := funext fun a => by simp only [Function.comp_apply]; congr 1; omega
    rw [h2, ih d, Nat.sub_zero, Nat.choose_succ_succ (p + 1 + d) d]
    have h3 : p + d + 1 = p + 1 + d := by omega
    rw [h3]

lemma mi_length : ∀ (d p : ℕ),
    (multi_index_matrix p d).length = Nat.choose (p + d) d := by
  intro d
  induction d with
  | zero => intro p; rw [mi_zero, Nat.choose_zero_right]; rfl
  | succ d ih =>
    intro p
    rw [mi_succ, List.length_flatMap]
    simp only [Function.comp_def, List.length_map, ih]
    rw [List.map_reverse, List.sum_reverse]
    have := sum_map_choose p d
    rw [show p + (d + 1) = p + d + 1 from by omega]
    exact this

lemma lex_irrefl_int : ∀ l : List ℤ, ¬ List.Lex (· < ·) l l := by
  intro l
  induction l with
  | nil => intro h; cases h
  | cons a l ih =>
    intro h
    cases h with
    | cons h => exact ih h
    | rel h => exact lt_irrefl a h

lemma mi_sorted : ∀ (d p : ℕ),
    (multi_index_matrix p d).Pairwise (fun r s => List.Lex (· < ·) s r) := by
  intro d
  induction d with
  | zero => intro p; rw [mi_zero]; simp
  | succ d ih =>
    intro p
    rw [mi_succ, List.pairwise_flatMap]
    constructor
    · intro a _
      rw [List.pairwise_map]
      exact (ih (p - a)).imp (fun h => List.Lex.cons h)
    · have hrev : ((List.range (p + 1)).reverse).Pairwise (fun a b => b < a) := by
        rw [List.pairwise_reverse]
        exact List.pairwise_lt_range (p + 1)
      refine hrev.imp ?_
      intro a b hba x hx y hy
      simp only [List.mem_map] at hx hy
      obtain ⟨r, _, rfl⟩ := hx
      obtain ⟨s, _, rfl⟩ := hy
      exact List.Lex.rel (by exact_mod_cast hba)

lemma mi_nodup (p d : ℕ) : (multi_index_matrix p d).Nodup := by
  refine (mi_sorted d p).imp ?_
  intro r s hlex he
  subst he
  exact lex_irrefl_int _ hlex

/-- C4: `multi_index_matrix(p, TD)` has exactly `C(p+TD, TD)` rows; each row
is a `(TD+1)`-tuple of non-negative integers summing to `p`; there are no
duplicate rows; and the rows are produced in a fixed canonical
degree-lexicographic order, formalised as: consecutive rows are strictly
decreasing in the lexicographic order on tuples (the most significant
coordinate varies slowest, the first row being `(p, 0, …, 0)`).  The order is
the same on every call since the function is pure. -/
theorem C4_multi_index_matrix (p TD : ℕ) (hTD : TD = 1 ∨ TD = 2 ∨ TD = 3) :
    (multi_index_matrix p TD).length = Nat.choose (p + TD) TD ∧
    (∀ r ∈ multi_index_matrix p TD,
      r.length = TD + 1 ∧ r.sum = (p : ℤ) ∧ ∀ x ∈ r, 0 ≤ x) ∧
    (multi_index_matrix p TD).Pairwise (fun r s => List.Lex (· < ·) s r) ∧
    (multi_index_matrix p TD).Nodup :=
  ⟨mi_length TD p, fun r hr => mi_mem TD p r hr, mi_sorted TD p, mi_nodup p TD⟩

/-- Witness for `C4_multi_index_matrix` at `p = 3`, `TD = 2`. -/
theorem C4_multi_index_matrix_witness :
    ((2 : ℕ) = 1 ∨ (2 : ℕ) = 2 ∨ (2 : ℕ) = 3) ∧
    ((multi_index_matrix 3 2).length = Nat.choose 5 2 ∧
     (∀ r ∈ multi_index_matrix 3 2,
       r.length = 3 ∧ r.sum = (3 : ℤ) ∧ ∀ x ∈ r, 0 ≤ x) ∧
     (multi_index_matrix 3 2).Pairwise (fun r s => List.Lex (· < ·) s r) ∧
     (multi_index_matrix 3 2).Nodup) :=
  ⟨by decide, C4_multi_index_matrix 3 2 (by decide)⟩

section Vandermonde

lemma factorial_cast_ne (k : ℕ) : ((k.factorial : ℝ)) ≠ 0 := by
  exact_mod_cast k.factorial_ne_zero

lemma gb_pascal (x : ℝ) (k : ℕ) :
    gb x (k + 1) = gb (x - 1) (k + 1) + gb (x - 1) k := by
  unfold gb
  rw [Finset.prod_range_succ', Finset.prod_range_succ]
  have e1 : ∏ t ∈ Finset.range k, (x - ((t + 1 : ℕ) : ℝ)) =
      ∏ t ∈ Finset.range k, ((x - 1) - (t : ℝ)) :=
    Finset.prod_congr rfl (fun t _ => by push_cast; ring)
  rw [e1, Nat.cast_zero, sub_zero, Nat.factorial_succ]
  have hk := factorial_cast_ne k
  have hk1 : (((k + 1) * k.factorial : ℕ) : ℝ) ≠ 0 := by
    exact_mod_cast Nat.mul_ne_zero (Nat.succ_ne_zero k) k.factorial_ne_zero
  field_simp
  ring

lemma gb_nat : ∀ (m k : ℕ), gb (m : ℝ) k = (m.choose k : ℝ) := by
  intro m
  induction m with
  | zero =>
    intro k
    cases k with
    | zero => simp [gb]
    | succ k =>
      unfold gb
      rw [Finset.prod_eq_zero (Finset.mem_range.mpr (Nat.succ_pos k)) (by simp)]
      simp
  | succ m ih =>
    intro k
    cases k with
    | zero => simp [gb]
    | succ k =>
      have hp := gb_pascal ((m + 1 : ℕ) : ℝ) k
      have e : ((m + 1 : ℕ) : ℝ) - 1 = (m : ℝ) := by push_cast; ring
      rw [e] at hp
      rw [hp, ih (k + 1), ih k, Nat.choose_succ_succ]
      push_cast
      ring

lemma gb_vdm_nat (q m n : ℕ) :
    ∑ k ∈ Finset.range (q + 1), gb (m : ℝ) k * gb (n : ℝ) (q - k) =
      gb ((m : ℝ) + (n : ℝ)) q := by
  have h := Nat.add_choose_eq m n q
  rw [Finset.Nat.sum_antidiagonal_eq_sum_range_succ_mk] at h
  have e : ((m : ℝ) + (n : ℝ)) = ((m + n : ℕ) : ℝ) := by push_cast; ring
  rw [e, gb_nat]
  simp only [gb_nat]
  rw [h]
  push_cast
  ring

lemma poly_eq_of_nat_eval {L R : Polynomial ℝ}
    (h : ∀ m : ℕ, L.eval ((m : ℕ) : ℝ) = R.eval ((m : ℕ) : ℝ)) : L = R := by
  have hinf : {y : ℝ | (L - R).IsRoot y}.Infinite := by
    refine Set.Infinite.mono ?_
      (Set.infinite_range_of_injective (f := (Nat.cast : ℕ → ℝ)) Nat.cast_injective)
    rintro y ⟨m, rfl⟩
    simp [Polynomial.IsRoot, h m]
  have h0 := Polynomial.eq_zero_of_infinite_isRoot _ hinf
  exact sub_eq_zero.mp h0

lemma gb_vdm_natx (q n : ℕ) (x : ℝ) :
    ∑ k ∈ Finset.range (q + 1), gb x k * gb (n : ℝ) (q - k) = gb (x + (n : ℝ)) q := by
  have evalL : ∀ y : ℝ,
      (∑ k ∈ Finset.range (q + 1),
        Polynomial.C (gb (n : ℝ) (q - k) * ((k.factorial : ℝ))⁻¹) *
          ∏ t ∈ Finset.range k, (Polynomial.X - Polynomial.C ((t : ℕ) : ℝ))).eval y =
      ∑ k ∈ Finset.range (q + 1), gb y k * gb (n : ℝ) (q - k) := by
    intro y
    rw [Polynomial.eval_finset_sum]
    refine Finset.sum_congr rfl fun k _ => ?_
    rw [Polynomial.eval_mul, Polynomial.eval_C, Polynomial.eval_prod]
    simp only [Polynomial.eval_sub, Polynomial.eval_X, Polynomial.eval_C]
    simp only [gb, div_eq_mul_inv]
    ring
  have evalR : ∀ y : ℝ,
      (Polynomial.C (((q.factorial : ℝ))⁻¹) *
        ∏ t ∈ Finset.range q, (Polynomial.X + Polynomial.C ((n : ℝ) - (t : ℕ)))).eval y =
      gb (y + (n : ℝ)) q := by
    intro y
    rw [Polynomial.eval_mul, Polynomial.eval_C, Polynomial.eval_prod]
    simp only [Polynomial.eval_add, Polynomial.eval_X, Polynomial.eval_C]
    rw [Finset.prod_congr rfl
      (fun t _ => by ring : ∀ t ∈ Finset.range q, y + ((n : ℝ) - (t : ℕ)) = (y + n) - t)]
    simp only [gb, div_eq_mul_inv]
    ring
  have hLR : (∑ k ∈ Finset.range (q + 1),
      Polynomial.C (gb (n : ℝ) (q - k) * ((k.factorial : ℝ))⁻¹) *
        ∏ t ∈ Finset.range k, (Polynomial.X - Polynomial.C ((t : ℕ) : ℝ))) =
      (Polynomial.C (((q.factorial : ℝ))⁻¹) *
        ∏ t ∈ Finset.range q, (Polynomial.X + Polynomial.C ((n : ℝ) - (t : ℕ)))) :=
    poly_eq_of_nat_eval (fun m => by rw [evalL, evalR, gb_vdm_nat q m n])
  rw [← evalL x, hLR, evalR x]

lemma gb_vandermonde (q : ℕ) (x y : ℝ) :
    ∑ k ∈ Finset.range (q + 1), gb x k * gb y (q - k) = gb (x + y) q := by
  have evalL : ∀ z : ℝ,
      (∑ k ∈ Finset.range (q + 1),
        Polynomial.C (gb x k * (((q - k).factorial : ℝ))⁻¹) *
          ∏ t ∈ Finset.range (q - k), (Polynomial.X - Polynomial.C ((t : ℕ) : ℝ))).eval z =
      ∑ k ∈ Finset.range (q + 1), gb x k * gb z (q - k) := by
    intro z
    rw [Polynomial.eval_finset_sum]
    refine Finset.sum_congr rfl fun k _ => ?_
    rw [Polynomial.eval_mul, Polynomial.eval_C, Polynomial.eval_prod]
    simp only [Polynomial.eval_sub, Polynomial.eval_X, Polynomial.eval_C]
    simp only [gb, div_eq_mul_inv]
    ring
  have evalR : ∀ z : ℝ,
      (Polynomial.C (((q.factorial : ℝ))⁻¹) *
        ∏ t ∈ Finset.range q,
          (Polynomial.C x + Polynomial.X - Polynomial.C ((t : ℕ) : ℝ))).eval z =
      gb (x + z) q := by
    intro z
    rw [Polynomial.eval_mul, Polynomial.eval_C, Polynomial.eval_prod]
    simp only [Polynomial.eval_sub, Polynomial.eval_add, Polynomial.eval_X, Polynomial.eval_C]
    simp only [gb, div_eq_mul_inv]
    ring
  have hLR : (∑ k ∈ Finset.range (q + 1),
      Polynomial.C (gb x k * (((q - k).factorial : ℝ))⁻¹) *
        ∏ t ∈ Finset.range (q - k), (Polynomial.X - Polynomial.C ((t : ℕ) : ℝ))) =
      (Polynomial.C (((q.factorial : ℝ))⁻¹) *
        ∏ t ∈ Finset.range q,
          (Polynomial.C x + Polynomial.X - Polynomial.C ((t : ℕ) : ℝ))) :=
    poly_eq_of_nat_eval (fun m => by rw [evalL, evalR, gb_vdm_natx q m x])
  rw [← evalL y, hLR, evalR y]

end Vandermonde

section ShapeFunction

lemma sum_flatMap_real {α : Type} (l : List α) (f : α → List ℝ) :
    (l.flatMap f).sum = (l.map (fun a => (f a).sum)).sum := by
  induction l with
  | nil => rfl
  | cons a l ih => simp [List.flatMap_cons, ih]

lemma sum_map_mul_const {α : Type} (l : List α) (c : ℝ) (g : α → ℝ) :
    (l.map (fun a => c * g a)).sum = c * (l.map g).sum := by
  induction l with
  | nil => simp
  | cons a l ih => simp [ih]; ring

lemma list_sum_range (f : ℕ → ℝ) : ∀ n, ((List.range n).map f).sum = ∑ i ∈ Finset.range n, f i := by
  intro n
  induction n with
  | zero => rfl
  | succ n ih => rw [List.range_succ, Finset.sum_range_succ, List.map_append, List.sum_append, ih]; simp

lemma sum_phi (p : ℕ) : ∀ (d q : ℕ) (bc : List ℝ), bc.length = d + 1 →
    ((multi_index_matrix q d).map
      (fun row =>
        (List.zipWith (fun (k : ℤ) (b : ℝ) => gb ((p : ℝ) * b) k.toNat) row bc).prod)).sum
      = gb ((p : ℝ) * bc.sum) q := by
  intro d
  induction d with
  | zero =>
    intro q bc hlen
    match bc, hlen with
    | [b], _ =>
      rw [mi_zero]
      simp [Int.toNat_natCast]
  | succ d ih =>
    intro q bc hlen
    match bc, hlen with
    | b :: bc', hlen =>
      have hlen' : bc'.length = d + 1 := by simpa using hlen
      rw [mi_succ, List.map_flatMap, sum_flatMap_real]
      have hblock : ∀ a ∈ (List.range (q + 1)).reverse,
          ((((multi_index_matrix (q - a) d).map (fun r => (a : ℤ) :: r)).map
            (fun row =>
              (List.zipWith (fun (k : ℤ) (b : ℝ) => gb ((p : ℝ) * b) k.toNat)
                row (b :: bc')).prod)).sum)
          = gb ((p : ℝ) * b) a * gb ((p : ℝ) * bc'.sum) (q - a) := by
        intro a _
        rw [List.map_map]
        have : ((fun row =>
            (List.zipWith (fun (k : ℤ) (b : ℝ) => gb ((p : ℝ) * b) k.toNat)
              row (b :: bc')).prod) ∘ (fun r => (a : ℤ) :: r))
            = (fun r => gb ((p : ℝ) * b) a *
                (List.zipWith (fun (k : ℤ) (b : ℝ) => gb ((p : ℝ) * b) k.toNat)
                  r bc').prod) := by
          funext r
          simp [List.zipWith, Int.toNat_natCast]
        rw [this, sum_map_mul_const, ih (q - a) bc' hlen']
      rw [List.map_congr_left hblock, List.map_reverse, List.sum_reverse,
        list_sum_range (fun a => gb ((p : ℝ) * b) a * gb ((p : ℝ) * bc'.sum) (q - a)) (q + 1),
        gb_vandermonde q ((p : ℝ) * b) ((p : ℝ) * bc'.sum)]
      rw [List.sum_cons, mul_add]

lemma mi_p0 : ∀ d : ℕ, multi_index_matrix 0 d = [List.replicate (d + 1) (0 : ℤ)] := by
  intro d
  induction d with
  | zero => rw [mi_zero]; simp
  | succ d ih =>
    rw [mi_succ, show List.range 1 = [0] from rfl]
    norm_num [ih, List.replicate_succ]

lemma zip_gb_zero : ∀ (d : ℕ) (bc : List ℝ),
    (List.zipWith (fun (k : ℤ) (b : ℝ) => gb (((0 : ℕ) : ℝ) * b) k.toNat)
      (List.replicate d (0 : ℤ)) bc).prod = 1
  | 0, _ => rfl
  | _ + 1, [] => rfl
  | d + 1, b :: bc => by
    rw [List.replicate_succ]
    simp only [List.zipWith_cons_cons, List.prod_cons, zip_gb_zero d bc]
    simp [gb]

/-- C1: for every degree `p ≥ 0`, every `TD ∈ {1,2,3}` and every barycentric
point `bc` (non-negative entries of length `TD+1` summing to `1`), the values
of `simplex_shape_function(bc, p)` sum to `1` (partition of unity, exact in
the real-number model of the float arithmetic); and for `p = 0` the returned
basis is the single constant value `1`. -/
theorem C1_partition_of_unity (p TD : ℕ) (hTD : TD = 1 ∨ TD = 2 ∨ TD = 3)
    (bc : List ℝ) (hlen : bc.length = TD + 1) (hnn : ∀ b ∈ bc, 0 ≤ b)
    (hsum : bc.sum = 1) :
    (simplex_shape_function bc p).sum = 1 ∧
    (p = 0 → simplex_shape_function bc p = [1]) := by
  constructor
  · by_cases hp : p = 1
    · rw [simplex_shape_function, if_pos hp]
      exact hsum
    · rw [simplex_shape_function, if_neg hp, show bc.length - 1 = TD from by omega,
        sum_phi p TD p bc hlen, hsum, mul_one, gb_nat p p, Nat.choose_self, Nat.cast_one]
  · intro hp0
    subst hp0
    rw [simplex_shape_function, if_neg (by norm_num), show bc.length - 1 = TD from by omega,
      mi_p0 TD]
    rw [List.map_singleton, zip_gb_zero (TD + 1) bc]

/-- Witness for `C1_partition_of_unity` at `p = 2`, `TD = 1`,
`bc = [1/2, 1/2]`. -/
theorem C1_partition_of_unity_witness :
    (((1 : ℕ) = 1 ∨ (1 : ℕ) = 2 ∨ (1 : ℕ) = 3) ∧
     ([(1 : ℝ)/2, 1/2].length = 1 + 1) ∧
     (∀ b ∈ [(1 : ℝ)/2, 1/2], 0 ≤ b) ∧ ([(1 : ℝ)/2, 1/2].sum = 1)) ∧
    ((simplex_shape_function [(1 : ℝ)/2, 1/2] 2).sum = 1 ∧
     ((2 : ℕ) = 0 → simplex_shape_function [(1 : ℝ)/2, 1/2] 2 = [1])) :=
  ⟨⟨by decide, by norm_num, by intro b hb; fin_cases hb <;> norm_num,
    by norm_num⟩,
   C1_partition_of_unity 2 1 (by decide) [(1 : ℝ)/2, 1/2] (by norm_num)
     (by intro b hb; fin_cases hb <;> norm_num) (by norm_num)⟩

end ShapeFunction

section SparseRoundTrip

lemma filter_lt_succ_len (l : List (ℕ × ℕ × ℝ)) (i : ℕ) :
    (l.filter (fun e => e.1 < i + 1)).length =
      (l.filter (fun e => e.1 < i)).length + (l.filter (fun e => e.1 = i)).length := by
  induction l with
  | nil => rfl
  | cons e l ih =>
    simp only [List.filter_cons]
    by_cases h : e.1 < i
    · have h' : e.1 < i + 1 := by omega
      have h'' : ¬ e.1 = i := by omega
      simp [h, h', h'', ih]
      omega
    · by_cases h2 : e.1 = i
      · have h' : e.1 < i + 1 := by omega
        simp [h, h2, h', ih]
        omega
      · have h' : ¬ e.1 < i + 1 := by omega
        simp [h, h2, h', ih]

lemma flatMap_filter_len (ent : List (ℕ × ℕ × ℝ)) : ∀ i : ℕ,
    ((List.range i).flatMap (fun r => ent.filter (fun e => e.1 = r))).length =
      (ent.filter (fun e => e.1 < i)).length := by
  intro i
  induction i with
  | zero =>
    simp only [List.range_zero, List.flatMap_nil, List.length_nil]
    rw [List.filter_eq_nil_iff.mpr (fun e _ => by simp)]
    rfl
  | succ i ih =>
    rw [List.range_succ, List.flatMap_append, List.length_append, ih, filter_lt_succ_len]
    simp

lemma getD_map_range (f : ℕ → ℕ) (n i : ℕ) (h : i < n) :
    (((List.range n).map f).getD i 0) = f i := by
  rw [List.getD_eq_getElem?_getD, List.getElem?_map, List.getElem?_range h]
  rfl

lemma bucket_sum (x : List ℝ) (N : ℕ) : ∀ (l : List (ℕ × ℕ × ℝ)), (∀ e ∈ l, e.2.1 < N) →
    (∑ j ∈ Finset.range N,
      ((l.filter (fun e => e.2.1 = j)).map (fun e => e.2.2)).sum * x.getD j 0)
      = (l.map (fun e => e.2.2 * x.getD e.2.1 0)).sum := by
  intro l
  induction l with
  | nil => simp
  | cons e l ih =>
    intro hb
    have he : e.2.1 ∈ Finset.range N := Finset.mem_range.mpr (hb e (by simp))
    have step : ∀ j ∈ Finset.range N,
        (((e :: l).filter (fun e => e.2.1 = j)).map (fun e => e.2.2)).sum * x.getD j 0
          = ((l.filter (fun e => e.2.1 = j)).map (fun e => e.2.2)).sum * x.getD j 0 +
            (if e.2.1 = j then e.2.2 * x.getD j 0 else 0) := by
      intro j _
      simp only [List.filter_cons]
      by_cases h : e.2.1 = j
      · simp [h]
        ring
      · simp [h]
    rw [Finset.sum_congr rfl step, Finset.sum_add_distrib,
      ih (fun a ha => hb a (by simp [ha])), Finset.sum_ite_eq (Finset.range N) e.2.1
        (fun j => e.2.2 * x.getD j 0), if_pos he]
    simp only [List.map_cons, List.sum_cons]
    ring

lemma coo_tocsr_parts (M : ℕ) (rows cols : List ℕ) (vals : List ℝ) :
    coo_tocsr M rows cols vals =
      ((List.range (M + 1)).map
          (fun i => ((cooEntries rows cols vals).filter (fun e => e.1 < i)).length),
       ((List.range M).flatMap
          (fun r => (cooEntries rows cols vals).filter (fun e => e.1 = r))).map
            (fun e => e.2.1),
       ((List.range M).flatMap
          (fun r => (cooEntries rows cols vals).filter (fun e => e.1 = r))).map
            (fun e => e.2.2)) := rfl

/-- C2 (amended): converting any COO input (unsorted, possibly with duplicate
`(row, col)` pairs) with `coo_tocsr` and then multiplying with `csr_spmm`'s
vector kernel reproduces the dense matrix-vector product of the materialised
matrix (duplicates accumulated by summation); the row pointer starts at `0`,
ends at `nnz` and is monotonically non-decreasing.  Duplicates are **not**
merged into a single CSR entry: the output keeps exactly `nnz` stored
entries. -/
theorem C2_csr_roundtrip (M N : ℕ) (rows cols : List ℕ) (vals x : List ℝ)
    (hr : rows.length = vals.length) (hc : cols.length = vals.length)
    (hrow : ∀ e ∈ cooEntries rows cols vals, e.1 < M)
    (hcol : ∀ e ∈ cooEntries rows cols vals, e.2.1 < N) :
    csr_matvec M (coo_tocsr M rows cols vals).1 (coo_tocsr M rows cols vals).2.1
        (coo_tocsr M rows cols vals).2.2 x = dense_matvec M N rows cols vals x ∧
    ((coo_tocsr M rows cols vals).1.getD 0 0 = 0 ∧
     (coo_tocsr M rows cols vals).1.getD M 0 = vals.length ∧
     ∀ i < M, (coo_tocsr M rows cols vals).1.getD i 0 ≤
       (coo_tocsr M rows cols vals).1.getD (i + 1) 0) ∧
    (coo_tocsr M rows cols vals).2.2.length = vals.length := by
  have hent : (cooEntries rows cols vals).length = vals.length := by
    simp [cooEntries, List.length_zip, hr, hc]
  have hfull : (cooEntries rows cols vals).filter (fun e => e.1 < M) =
      cooEntries rows cols vals :=
    List.filter_eq_self.mpr (fun e he => by simp [hrow e he])
  simp only [coo_tocsr_parts]
  refine ⟨?_, ⟨?_, ?_, ?_⟩, ?_⟩
  · unfold csr_matvec dense_matvec
    refine List.map_congr_left fun i hi => ?_
    have hiM : i < M := List.mem_range.mp hi
    rw [getD_map_range _ (M + 1) i (by omega), getD_map_range _ (M + 1) (i + 1) (by omega),
      List.zip_map']
    rw [show M = (i + 1) + (M - (i + 1)) from by omega, List.range_add,
      List.flatMap_append, List.range_succ, List.flatMap_append, List.flatMap_cons,
      List.flatMap_nil, List.append_nil, List.append_assoc, List.map_append,
      List.map_append]
    rw [show ((cooEntries rows cols vals).filter (fun e => e.1 < i)).length =
        (((List.range i).flatMap fun r =>
          (cooEntries rows cols vals).filter (fun e => e.1 = r)).map
            (fun e => (e.2.2, e.2.1))).length from by
      rw [List.length_map, flatMap_filter_len]]
    rw [List.drop_left]
    rw [show ((cooEntries rows cols vals).filter (fun e => e.1 < i + 1)).length -
        (((List.range i).flatMap fun r =>
          (cooEntries rows cols vals).filter (fun e => e.1 = r)).map
            (fun e => (e.2.2, e.2.1))).length =
        (((cooEntries rows cols vals).filter (fun e => e.1 = i)).map
          (fun e => (e.2.2, e.2.1))).length from by
      rw [List.length_map, List.length_map, flatMap_filter_len, filter_lt_succ_len]
      omega]
    rw [List.take_left, List.map_map]
    have hff : ∀ j : ℕ,
        (cooEntries rows cols vals).filter (fun e => e.1 = i ∧ e.2.1 = j) =
        ((cooEntries rows cols vals).filter (fun e => e.1 = i)).filter
          (fun e => e.2.1 = j) := by
      intro j
      rw [List.filter_filter]
      refine List.filter_congr fun e _ => ?_
      simp only [Bool.decide_and]
      rw [Bool.and_comm]
    rw [Finset.sum_congr rfl (fun j _ => by rw [hff j])]
    rw [bucket_sum x N ((cooEntries rows cols vals).filter (fun e => e.1 = i))
      (fun e he => hcol e (List.mem_of_mem_filter he))]
    rfl
  · rw [getD_map_range _ (M + 1) 0 (by omega)]
    rw [List.filter_eq_nil_iff.mpr (fun e _ => by simp)]
    rfl
  · rw [getD_map_range _ (M + 1) M (by omega), hfull, hent]
  · intro i hiM
    rw [getD_map_range _ (M + 1) i (by omega), getD_map_range _ (M + 1) (i + 1) (by omega),
      filter_lt_succ_len]
    omega
  · rw [List.length_map, flatMap_filter_len, hfull, hent]

/-- Witness for `C2_csr_roundtrip`: a 2×2 matrix with a duplicated `(0,1)`
entry and an unsorted row order. -/
theorem C2_csr_roundtrip_witness :
    (([0, 0, 1] : List ℕ).length = ([(1 : ℝ), 2, 3]).length ∧
     ([1, 1, 0] : List ℕ).length = ([(1 : ℝ), 2, 3]).length ∧
     (∀ e ∈ cooEntries [0, 0, 1] [1, 1, 0] [(1 : ℝ), 2, 3], e.1 < 2) ∧
     (∀ e ∈ cooEntries [0, 0, 1] [1, 1, 0] [(1 : ℝ), 2, 3], e.2.1 < 2)) ∧
    (csr_matvec 2 (coo_tocsr 2 [0, 0, 1] [1, 1, 0] [(1 : ℝ), 2, 3]).1
        (coo_tocsr 2 [0, 0, 1] [1, 1, 0] [(1 : ℝ), 2, 3]).2.1
        (coo_tocsr 2 [0, 0, 1] [1, 1, 0] [(1 : ℝ), 2, 3]).2.2 [5, 7] =
        dense_matvec 2 2 [0, 0, 1] [1, 1, 0] [(1 : ℝ), 2, 3] [5, 7] ∧
     ((coo_tocsr 2 [0, 0, 1] [1, 1, 0] [(1 : ℝ), 2, 3]).1.getD 0 0 = 0 ∧
      (coo_tocsr 2 [0, 0, 1] [1, 1, 0] [(1 : ℝ), 2, 3]).1.getD 2 0 =
        ([(1 : ℝ), 2, 3]).length ∧
      ∀ i < 2, (coo_tocsr 2 [0, 0, 1] [1, 1, 0] [(1 : ℝ), 2, 3]).1.getD i 0 ≤
        (coo_tocsr 2 [0, 0, 1] [1, 1, 0] [(1 : ℝ), 2, 3]).1.getD (i + 1) 0) ∧
     (coo_tocsr 2 [0, 0, 1] [1, 1, 0] [(1 : ℝ), 2, 3]).2.2.length =
       ([(1 : ℝ), 2, 3]).length) :=
  ⟨⟨by norm_num, by norm_num,
    by intro e he; fin_cases he <;> norm_num,
    by intro e he; fin_cases he <;> norm_num⟩,
   C2_csr_roundtrip 2 2 [0, 0, 1] [1, 1, 0] [(1 : ℝ), 2, 3] [5, 7]
     (by norm_num) (by norm_num)
     (by intro e he; fin_cases he <;> norm_num)
     (by intro e he; fin_cases he <;> norm_num)⟩


end SparseRoundTrip

section GradShapeFunction

lemma derivative_range_prod (k : ℕ) (g : ℕ → Polynomial ℝ)
    (hg : ∀ t, Polynomial.derivative (g t) = 1) :
    Polynomial.derivative (∏ t ∈ Finset.range k, g t) =
      ∑ m ∈ Finset.range k, ∏ t ∈ (Finset.range k).erase m, g t := by
  induction k with
  | zero => simp
  | succ k ih =>
    rw [Finset.prod_range_succ, Polynomial.derivative_mul, ih, hg k, mul_one,
      Finset.sum_range_succ]
    congr 1
    · rw [Finset.sum_mul]
      refine Finset.sum_congr rfl fun m hm => ?_
      have hmk : m ≠ k := by have := Finset.mem_range.mp hm; omega
      rw [Finset.range_succ, Finset.erase_insert_of_ne hmk.symm,
        Finset.prod_insert (fun hmem => Finset.not_mem_range_self (Finset.mem_of_mem_erase hmem))]
      ring
    · rw [Finset.range_succ, Finset.erase_insert Finset.not_mem_range_self]

lemma evalL_gen (q : ℕ) (c : ℕ → ℝ) (z : ℝ) :
    (∑ k ∈ Finset.range (q + 1),
      Polynomial.C (c k * ((k.factorial : ℝ))⁻¹) *
        ∏ t ∈ Finset.range k, (Polynomial.X - Polynomial.C ((t : ℕ) : ℝ))).eval z =
    ∑ k ∈ Finset.range (q + 1), gb z k * c k := by
  rw [Polynomial.eval_finset_sum]
  refine Finset.sum_congr rfl fun k _ => ?_
  rw [Polynomial.eval_mul, Polynomial.eval_C, Polynomial.eval_prod]
  simp only [Polynomial.eval_sub, Polynomial.eval_X, Polynomial.eval_C]
  simp only [gb, div_eq_mul_inv]
  ring

lemma evalR_gen (q : ℕ) (w z : ℝ) :
    (Polynomial.C (((q.factorial : ℝ))⁻¹) *
      ∏ t ∈ Finset.range q, (Polynomial.X + Polynomial.C (w - (t : ℕ)))).eval z =
    gb (z + w) q := by
  rw [Polynomial.eval_mul, Polynomial.eval_C, Polynomial.eval_prod]
  simp only [Polynomial.eval_add, Polynomial.eval_X, Polynomial.eval_C]
  rw [Finset.prod_congr rfl
    (fun t _ => by ring : ∀ t ∈ Finset.range q, z + (w - ((t : ℕ) : ℝ)) = (z + w) - t)]
  simp only [gb, div_eq_mul_inv]
  ring

lemma evalL_deriv (q : ℕ) (c : ℕ → ℝ) (z : ℝ) :
    (Polynomial.derivative (∑ k ∈ Finset.range (q + 1),
      Polynomial.C (c k * ((k.factorial : ℝ))⁻¹) *
        ∏ t ∈ Finset.range k, (Polynomial.X - Polynomial.C ((t : ℕ) : ℝ)))).eval z =
    ∑ k ∈ Finset.range (q + 1), gbD z k * c k := by
  rw [Polynomial.derivative_sum, Polynomial.eval_finset_sum]
  refine Finset.sum_congr rfl fun k _ => ?_
  rw [Polynomial.derivative_C_mul, derivative_range_prod k _ (fun t => by
    rw [Polynomial.derivative_sub, Polynomial.derivative_X, Polynomial.derivative_C, sub_zero])]
  rw [Polynomial.eval_mul, Polynomial.eval_C, Polynomial.eval_finset_sum]
  have hs : (∑ m ∈ Finset.range k,
      Polynomial.eval z (∏ t ∈ (Finset.range k).erase m,
        (Polynomial.X - Polynomial.C ((t : ℕ) : ℝ)))) =
      ∑ m ∈ Finset.range k, ∏ t ∈ (Finset.range k).erase m, (z - ((t : ℕ) : ℝ)) :=
    Finset.sum_congr rfl (fun m _ => by
      rw [Polynomial.eval_prod]
      exact Finset.prod_congr rfl (fun t _ => by
        simp only [Polynomial.eval_sub, Polynomial.eval_X, Polynomial.eval_C]))
  rw [hs]
  simp only [gbD, div_eq_mul_inv]
  ring

lemma evalR_deriv (q : ℕ) (w z : ℝ) :
    (Polynomial.derivative (Polynomial.C (((q.factorial : ℝ))⁻¹) *
      ∏ t ∈ Finset.range q, (Polynomial.X + Polynomial.C (w - (t : ℕ))))).eval z =
    gbD (z + w) q := by
  rw [Polynomial.derivative_C_mul, derivative_range_prod q _ (fun t => by
    rw [Polynomial.derivative_add, Polynomial.derivative_X, Polynomial.derivative_C, add_zero])]
  rw [Polynomial.eval_mul, Polynomial.eval_C, Polynomial.eval_finset_sum]
  have hs : (∑ m ∈ Finset.range q,
      Polynomial.eval z (∏ t ∈ (Finset.range q).erase m,
        (Polynomial.X + Polynomial.C (w - ((t : ℕ) : ℝ))))) =
      ∑ m ∈ Finset.range q, ∏ t ∈ (Finset.range q).erase m, ((z + w) - ((t : ℕ) : ℝ)) :=
    Finset.sum_congr rfl (fun m _ => by
      rw [Polynomial.eval_prod]
      exact Finset.prod_congr rfl (fun t _ => by
        simp only [Polynomial.eval_add, Polynomial.eval_X, Polynomial.eval_C]
        ring))
  rw [hs]
  simp only [gbD, div_eq_mul_inv]
  ring

lemma gbD_vdm (q : ℕ) (x y : ℝ) :
    ∑ k ∈ Finset.range (q + 1), gbD x k * gb y (q - k) = gbD (x + y) q := by
  have hLR : (∑ k ∈ Finset.range (q + 1),
      Polynomial.C (gb y (q - k) * ((k.factorial : ℝ))⁻¹) *
        ∏ t ∈ Finset.range k, (Polynomial.X - Polynomial.C ((t : ℕ) : ℝ))) =
      (Polynomial.C (((q.factorial : ℝ))⁻¹) *
        ∏ t ∈ Finset.range q, (Polynomial.X + Polynomial.C (y - (t : ℕ)))) :=
    poly_eq_of_nat_eval (fun m => by
      rw [evalL_gen q (fun k => gb y (q - k)) ((m : ℕ) : ℝ), evalR_gen q y ((m : ℕ) : ℝ),
        gb_vandermonde q ((m : ℕ) : ℝ) y])
  have hd := congrArg (fun P => (Polynomial.derivative P).eval x) hLR
  simp only at hd
  rw [evalL_deriv q (fun k => gb y (q - k)) x, evalR_deriv q y x] at hd
  exact hd

lemma gb_gbD_vdm (q : ℕ) (x y : ℝ) :
    ∑ k ∈ Finset.range (q + 1), gb x k * gbD y (q - k) = gbD (x + y) q := by
  have hrefl := Finset.sum_range_reflect (fun k => gb x k * gbD y (q - k)) (q + 1)
  rw [← hrefl]
  have hs : (∑ j ∈ Finset.range (q + 1),
      gb x (q + 1 - 1 - j) * gbD y (q - (q + 1 - 1 - j))) =
      ∑ j ∈ Finset.range (q + 1), gbD y j * gb x (q - j) :=
    Finset.sum_congr rfl (fun j hj => by
      have hj' : j ≤ q := by have := Finset.mem_range.mp hj; omega
      rw [show q + 1 - 1 - j = q - j from by omega, show q - (q - j) = j from by omega,
        mul_comm])
  rw [hs, gbD_vdm q y x, add_comm]

lemma Fval_eq (p : ℕ) (b : ℝ) (k : ℕ) :
    Fval p b k = (p : ℝ) * gbD ((p : ℝ) * b) k := by
  simp only [Fval, gbD, div_eq_mul_inv, ← Finset.mul_sum]
  ring

end GradShapeFunction

lemma getD_map_range_gen {α : Type} (f : ℕ → α) (dflt : α) (n i : ℕ) (h : i < n) :
    (((List.range n).map f).getD i dflt) = f i := by
  rw [List.getD_eq_getElem?_getD, List.getElem?_map, List.getElem?_range h]
  rfl

lemma sum_grad (p : ℕ) : ∀ (d q : ℕ) (bc : List ℝ) (i : ℕ),
    bc.length = d + 1 → i < d + 1 →
    ((multi_index_matrix q d).map
      (fun row => Fval p (bc.getD i 0) ((row.getD i 0).toNat) *
        ((List.zipWith (fun (k : ℤ) (b : ℝ) => gb ((p : ℝ) * b) k.toNat)
          row bc).eraseIdx i).prod)).sum
    = (p : ℝ) * gbD ((p : ℝ) * bc.sum) q := by
  intro d
  induction d with
  | zero =>
    intro q bc i hlen hi
    have hi0 : i = 0 := by omega
    subst hi0
    match bc, hlen with
    | [b], _ =>
      rw [mi_zero]
      simp [Int.toNat_natCast, Fval_eq]
  | succ d ih =>
    intro q bc i hlen hi
    match bc, hlen with
    | b :: bc', hlen =>
      have hlen' : bc'.length = d + 1 := by simpa using hlen
      rw [mi_succ, List.map_flatMap, sum_flatMap_real]
      cases i with
      | zero =>
        have hblock : ∀ a ∈ (List.range (q + 1)).reverse,
            ((((multi_index_matrix (q - a) d).map (fun r => (a : ℤ) :: r)).map
              (fun row => Fval p ((b :: bc').getD 0 0) ((row.getD 0 0).toNat) *
                ((List.zipWith (fun (k : ℤ) (b : ℝ) => gb ((p : ℝ) * b) k.toNat)
                  row (b :: bc')).eraseIdx 0).prod)).sum)
            = Fval p b a * gb ((p : ℝ) * bc'.sum) (q - a) := by
          intro a _
          rw [List.map_map]
          have hfn : ((fun row => Fval p ((b :: bc').getD 0 0) ((row.getD 0 0).toNat) *
              ((List.zipWith (fun (k : ℤ) (b : ℝ) => gb ((p : ℝ) * b) k.toNat)
                row (b :: bc')).eraseIdx 0).prod) ∘ (fun r => (a : ℤ) :: r))
              = (fun r => Fval p b a *
                (List.zipWith (fun (k : ℤ) (b : ℝ) => gb ((p : ℝ) * b) k.toNat)
                  r bc').prod) := by
            funext r
            simp [Int.toNat_natCast]
          rw [hfn, sum_map_mul_const, sum_phi p d (q - a) bc' hlen']
        rw [List.map_congr_left hblock, List.map_reverse, List.sum_reverse,
          list_sum_range (fun a => Fval p b a * gb ((p : ℝ) * bc'.sum) (q - a)) (q + 1)]
        have hc : (∑ a ∈ Finset.range (q + 1),
            Fval p b a * gb ((p : ℝ) * bc'.sum) (q - a)) =
            ∑ a ∈ Finset.range (q + 1),
              (p : ℝ) * (gbD ((p : ℝ) * b) a * gb ((p : ℝ) * bc'.sum) (q - a)) :=
          Finset.sum_congr rfl (fun a _ => by rw [Fval_eq]; ring)
        rw [hc, ← Finset.mul_sum, gbD_vdm q ((p : ℝ) * b) ((p : ℝ) * bc'.sum),
          List.sum_cons, mul_add]
      | succ i' =>
        have hi' : i' < d + 1 := by omega
        have hblock : ∀ a ∈ (List.range (q + 1)).reverse,
            ((((multi_index_matrix (q - a) d).map (fun r => (a : ℤ) :: r)).map
              (fun row => Fval p ((b :: bc').getD (i' + 1) 0) ((row.getD (i' + 1) 0).toNat) *
                ((List.zipWith (fun (k : ℤ) (b : ℝ) => gb ((p : ℝ) * b) k.toNat)
                  row (b :: bc')).eraseIdx (i' + 1)).prod)).sum)
            = gb ((p : ℝ) * b) a * ((p : ℝ) * gbD ((p : ℝ) * bc'.sum) (q - a)) := by
          intro a _
          rw [List.map_map]
          have hfn : ((fun row => Fval p ((b :: bc').getD (i' + 1) 0)
                ((row.getD (i' + 1) 0).toNat) *
                ((List.zipWith (fun (k : ℤ) (b : ℝ) => gb ((p : ℝ) * b) k.toNat)
                  row (b :: bc')).eraseIdx (i' + 1)).prod) ∘ (fun r => (a : ℤ) :: r))
              = (fun r => gb ((p : ℝ) * b) ((a : ℤ)).toNat *
                  (Fval p (bc'.getD i' 0) ((r.getD i' 0).toNat) *
                    ((List.zipWith (fun (k : ℤ) (b : ℝ) => gb ((p : ℝ) * b) k.toNat)
                      r bc').eraseIdx i').prod)) := by
            funext r
            simp only [Function.comp_apply, List.getD_cons_succ, List.zipWith_cons_cons,
              List.eraseIdx_cons_succ, List.prod_cons]
            ring
          rw [hfn]
          simp only [Int.toNat_natCast]
          rw [sum_map_mul_const, ih (q - a) bc' i' hlen' hi']
        rw [List.map_congr_left hblock, List.map_reverse, List.sum_reverse,
          list_sum_range (fun a => gb ((p : ℝ) * b) a *
            ((p : ℝ) * gbD ((p : ℝ) * bc'.sum) (q - a))) (q + 1)]
        have hc : (∑ a ∈ Finset.range (q + 1),
            gb ((p : ℝ) * b) a * ((p : ℝ) * gbD ((p : ℝ) * bc'.sum) (q - a))) =
            ∑ a ∈ Finset.range (q + 1),
              (p : ℝ) * (gb ((p : ℝ) * b) a * gbD ((p : ℝ) * bc'.sum) (q - a)) :=
          Finset.sum_congr rfl (fun a _ => by ring)
        rw [hc, ← Finset.mul_sum, gb_gbD_vdm q ((p : ℝ) * b) ((p : ℝ) * bc'.sum),
          List.sum_cons, mul_add]

/-- C3 (amended): the claimed invariant
`sum(simplex_grad_shape_function(bc,p), axis=-1) = 0` fails on the code (see
the counterexample); the invariant induced by the partition of unity is the
column one: for every valid barycentric point, summing the gradient array
over the `ldof` axis yields a vector whose `TD+1` components are all equal
(the common value being `p·gbD(p·Σbc, p)`), so its contraction with any
direction tangent to the barycentric hyperplane vanishes. -/
theorem C3_grad_column_sums (p TD : ℕ) (hTD : TD = 1 ∨ TD = 2 ∨ TD = 3)
    (bc : List ℝ) (hlen : bc.length = TD + 1) (hnn : ∀ b ∈ bc, 0 ≤ b)
    (hsum : bc.sum = 1) (i j : ℕ) (hi : i < TD + 1) (hj : j < TD + 1) :
    ((simplex_grad_shape_function bc p).map (fun r => r.getD i 0)).sum =
      ((simplex_grad_shape_function bc p).map (fun r => r.getD j 0)).sum := by
  have key : ∀ m : ℕ, m < TD + 1 →
      ((simplex_grad_shape_function bc p).map (fun r => r.getD m 0)).sum =
        (p : ℝ) * gbD ((p : ℝ) * bc.sum) p := by
    intro m hm
    unfold simplex_grad_shape_function
    rw [List.map_map]
    have hfn : ((fun r => r.getD m 0) ∘ (fun row =>
        (List.range bc.length).map (fun i =>
          Fval p (bc.getD i 0) ((row.getD i 0).toNat) *
            ((List.zipWith (fun (k : ℤ) (b : ℝ) => gb ((p : ℝ) * b) k.toNat)
              row bc).eraseIdx i).prod)))
        = (fun row => Fval p (bc.getD m 0) ((row.getD m 0).toNat) *
            ((List.zipWith (fun (k : ℤ) (b : ℝ) => gb ((p : ℝ) * b) k.toNat)
              row bc).eraseIdx m).prod) := by
      funext row
      simp only [Function.comp_apply]
      exact getD_map_range_gen _ 0 bc.length m (by omega)
    rw [hfn, show bc.length - 1 = TD from by omega]
    exact sum_grad p TD p bc m hlen (by omega)
  rw [key i hi, key j hj]

/-- Witness for `C3_grad_column_sums` at `p = 2`, `TD = 1`,
`bc = [1/2, 1/2]`, columns `0` and `1`. -/
theorem C3_grad_column_sums_witness :
    (((1 : ℕ) = 1 ∨ (1 : ℕ) = 2 ∨ (1 : ℕ) = 3) ∧
     ([(1 : ℝ)/2, 1/2].length = 1 + 1) ∧
     (∀ b ∈ [(1 : ℝ)/2, 1/2], 0 ≤ b) ∧ ([(1 : ℝ)/2, 1/2].sum = 1) ∧
     (0 : ℕ) < 1 + 1 ∧ (1 : ℕ) < 1 + 1) ∧
    ((simplex_grad_shape_function [(1 : ℝ)/2, 1/2] 2).map (fun r => r.getD 0 0)).sum =
      ((simplex_grad_shape_function [(1 : ℝ)/2, 1/2] 2).map (fun r => r.getD 1 0)).sum :=
  ⟨⟨by decide, by norm_num, by intro b hb; fin_cases hb <;> norm_num, by norm_num,
    by decide, by decide⟩,
   C3_grad_column_sums 2 1 (by decide) [(1 : ℝ)/2, 1/2] (by norm_num)
     (by intro b hb; fin_cases hb <;> norm_num) (by norm_num) 0 1
     (by decide) (by decide)⟩

/-- C3 counterexample: at `p = 1`, `TD = 1`, `bc = (1, 0)` (a valid
barycentric point) the gradient array is `[[1, 0], [0, 1]]`, whose row sums
across the `TD+1` barycentric directions are `[1, 1]`, not the zero
vector. -/
theorem C3_counterexample :
    (simplex_grad_shape_function [(1 : ℝ), 0] 1).map List.sum = [1, 1] ∧
    ([(1 : ℝ), 1] : List ℝ) ≠ [0, 0] := by
  constructor
  · have hmi : multi_index_matrix 1 1 = [[(1 : ℤ), 0], [0, 1]] := by decide
    unfold simplex_grad_shape_function
    rw [show ([(1 : ℝ), 0] : List ℝ).length = 2 from rfl]
    rw [show (2 : ℕ) - 1 = 1 from rfl, hmi]
    rw [show List.range 2 = [0, 1] from rfl]
    norm_num [Fval, gb, Int.toNat_natCast]
  · intro h
    simp only [List.cons.injEq] at h
    norm_num at h
